import Mathlib

/-!
Verification of the AsyncSSH interactive line editor subsystem and the
Windows agent transports.

The agent transports are embedded directly from src/asyncssh/agent_win32.py.
The line editor implementation itself is not present under src/ (only its
unit tests, src/tests/test_editor.py, are), so the editor data model and
state machine below are modelled from the specification, with the unit
tests used to adjudicate where the specification text conflicts with
itself.  Every such definition carries a doc comment saying so.
-/

namespace AsyncSSHEditor

/-- Modelled from the spec: the edit buffer of the line editor (spec section 3),
whose implementation file is missing from src/.  A sequence of code points
`line`, a gap cursor `cursor` with the intended invariant
`0 ≤ cursor ≤ line.length`, and a single-slot `kill_ring` holding the most
recently killed span. -/
structure EditBuffer where
  line : List Char
  cursor : Nat
  kill_ring : List Char
deriving Repr, DecidableEq

/-- The cursor-clamp invariant of spec section 3: the cursor always refers to
a gap position inside the line. -/
def EditBuffer.wf (b : EditBuffer) : Prop := b.cursor ≤ b.line.length

instance (b : EditBuffer) : Decidable b.wf := by
  unfold EditBuffer.wf
  infer_instance

/-- Modelled from the spec: splice `c` at `cursor`, `cursor += 1`
(spec section 4.2). -/
def EditBuffer.insert (b : EditBuffer) (c : Char) : EditBuffer :=
  { b with line := b.line.take b.cursor ++ c :: b.line.drop b.cursor,
           cursor := b.cursor + 1 }

/-- Modelled from the spec: if `cursor > 0`, remove `line[cursor-1]` and
decrement the cursor; otherwise a no-op (spec section 4.2). -/
def EditBuffer.delete_left (b : EditBuffer) : EditBuffer :=
  if 0 < b.cursor then
    { b with line := b.line.take (b.cursor - 1) ++ b.line.drop b.cursor,
             cursor := b.cursor - 1 }
  else b

/-- Modelled from the spec: if `cursor < n`, remove `line[cursor]`
(spec section 4.2).  The soft-EOF signalling of the empty-buffer case is
handled by the editor state machine, not here. -/
def EditBuffer.delete_right (b : EditBuffer) : EditBuffer :=
  if b.cursor < b.line.length then
    { b with line := b.line.take b.cursor ++ b.line.drop (b.cursor + 1) }
  else b

/-- Modelled from the spec: cursor moves clamp to `[0, n]` (spec section 4.2). -/
def EditBuffer.move_left (b : EditBuffer) : EditBuffer :=
  { b with cursor := b.cursor - 1 }

/-- Modelled from the spec: cursor moves clamp to `[0, n]` (spec section 4.2). -/
def EditBuffer.move_right (b : EditBuffer) : EditBuffer :=
  { b with cursor := min (b.cursor + 1) b.line.length }

/-- Modelled from the spec: move the cursor to position 0 (spec section 4.2). -/
def EditBuffer.move_home (b : EditBuffer) : EditBuffer :=
  { b with cursor := 0 }

/-- Modelled from the spec: move the cursor to the end of the line
(spec section 4.2). -/
def EditBuffer.move_end (b : EditBuffer) : EditBuffer :=
  { b with cursor := b.line.length }

/-- Modelled from the spec: store `line` into `kill_ring`, clear `line`,
`cursor = 0` (spec section 4.2). -/
def EditBuffer.kill_line (b : EditBuffer) : EditBuffer :=
  { b with kill_ring := b.line, line := [], cursor := 0 }

/-- Modelled from the spec: store the suffix from the cursor into `kill_ring`
and truncate the line there (spec section 4.2). -/
def EditBuffer.kill_to_end (b : EditBuffer) : EditBuffer :=
  { b with kill_ring := b.line.drop b.cursor, line := b.line.take b.cursor }

/-- Modelled from the spec: insert the kill ring at the cursor
(spec section 4.2).  As with `insert`, the cursor advances past the
inserted span, which matches the Kill + yank twice scenario of
spec section 8 where a second yank appends after the first one. -/
def EditBuffer.yank (b : EditBuffer) : EditBuffer :=
  { b with line := b.line.take b.cursor ++ b.kill_ring ++ b.line.drop b.cursor,
           cursor := b.cursor + b.kill_ring.length }

/-- Modelled from the spec: the bounded history ring of completed lines,
capacity `H` with default 1000 (spec section 3). -/
structure HistoryRing where
  hist : List (List Char)
  capacity : Nat
deriving Repr, DecidableEq

/-- Modelled from the spec: append unless equal to the last entry; if the
length then exceeds the capacity, drop the oldest entry (spec section 4.3). -/
def HistoryRing.remember (r : HistoryRing) (l : List Char) : HistoryRing :=
  if r.hist.getLast? = some l then r
  else
    if r.capacity < (r.hist ++ [l]).length then { r with hist := (r.hist ++ [l]).tail }
    else { r with hist := r.hist ++ [l] }

lemma remember_getLast (r : HistoryRing) (l : List Char) (hcap : 1 ≤ r.capacity) :
    (r.remember l).hist.getLast? = some l := by
  unfold HistoryRing.remember
  split
  · assumption
  · rename_i hne
    split
    · rename_i hlen
      match h : r.hist with
      | [] =>
        rw [h] at hlen
        simp at hlen
        omega
      | a :: t =>
        simp only [List.cons_append, List.tail_cons]
        exact List.getLast?_concat t
    · simp only
      exact List.getLast?_concat r.hist

/-- Modelled from the spec: load history entry number `i` when recalling
(spec section 4.3); out-of-range indices yield the empty line. -/
def HistoryRing.entry (r : HistoryRing) (i : Nat) : List Char :=
  r.hist.getD i []

/-- Modelled from the spec: the actions the key decoder emits
(spec section 4.4).  The arrow-key escape sequences decode to the same
actions as the corresponding control characters; the multi-character escape
parser state is not needed by any claim and is left out, so an escape
introducer simply counts as an unknown key here. -/
inductive Key where
  | printable (c : Char)
  | deleteLeft
  | eofOrDeleteRight
  | moveLeft
  | moveRight
  | moveHome
  | moveEnd
  | killLine
  | killToEnd
  | yank
  | redraw
  | histPrev
  | histNext
  | submit
  | brk
  | unknown
deriving Repr, DecidableEq

/-- Modelled from the spec: the control-character binding table of
spec section 4.4.  TAB (0x09) inserts itself; other unbound control
characters (and DEL-less 0x7F aside) are unknown keys, which the editor
ignores, matching the Unknown key test row of the test corpus. -/
def decode (c : Char) : Key :=
  if c.toNat = 0x01 then .moveHome
  else if c.toNat = 0x02 then .moveLeft
  else if c.toNat = 0x03 then .brk
  else if c.toNat = 0x04 then .eofOrDeleteRight
  else if c.toNat = 0x05 then .moveEnd
  else if c.toNat = 0x06 then .moveRight
  else if c.toNat = 0x08 then .deleteLeft
  else if c.toNat = 0x09 then .printable c
  else if c.toNat = 0x0A then .submit
  else if c.toNat = 0x0B then .killToEnd
  else if c.toNat = 0x0D then .submit
  else if c.toNat = 0x0E then .histNext
  else if c.toNat = 0x10 then .histPrev
  else if c.toNat = 0x12 then .redraw
  else if c.toNat = 0x15 then .killLine
  else if c.toNat = 0x19 then .yank
  else if c.toNat = 0x7F then .deleteLeft
  else if c.toNat < 0x20 then .unknown
  else .printable c

/-- Modelled from the spec: a character is printable iff it is not a bound
control character and not a control code (spec section 4.4). -/
def printableChar (c : Char) : Prop := 0x20 ≤ c.toNat ∧ c.toNat ≠ 0x7F

instance (c : Char) : Decidable (printableChar c) := by
  unfold printableChar
  infer_instance

/-- Modelled from the spec: echo output to the remote terminal, abstracted to
the event level.  The renderer (spec section 4.5) computes exact byte
sequences; the claims only distinguish echoing a printable character, the
end-of-line echo, an erase or cursor-control sequence, and silence, so the
shallow embedding records those four shapes. -/
inductive Echo where
  | char (c : Char)
  | crlf
  | control
deriving Repr, DecidableEq

/-- Modelled from the spec: what the editor delivers to the consumer
(spec sections 4.6, 6 and 7): completed lines without their terminator,
BREAK events, soft-EOF, terminal-resize events, and raw pass-through data
when the editor is bypassed. -/
inductive Event where
  | line (l : List Char)
  | breakEvt
  | softEOF
  | resized (w h : Nat)
  | rawData (cs : List Char)
deriving Repr, DecidableEq

/-- Modelled from the spec: editor core states (spec section 4.6).  The raw
and closed states concern line-mode-off and source-EOF handling, which no
claim quantifies over, so only the line-mode states are represented. -/
inductive EdState where
  | idle
  | editing
deriving Repr, DecidableEq

/-- Modelled from the spec: the editor core owning the edit buffer, the
history ring with its recall index and scratch line (spec section 4.3),
the echo flag, the terminal size from the policy, and the state-machine
state (spec section 4.6). -/
structure Editor where
  buf : EditBuffer
  hist : HistoryRing
  h_idx : Nat
  scratch : List Char
  echo : Bool
  width : Nat
  height : Nat
  state : EdState
deriving Repr, DecidableEq

/-- The echo emitted for an edit action that changes the display: a cursor
or erase control sequence when echo is on, nothing when echo is off
(spec section 4.5, Echo-off). -/
def Editor.ctl (ed : Editor) : List Echo :=
  if ed.echo then [Echo.control] else []

/-- Modelled from the spec: one step of the editor state machine on a decoded
key in line mode (spec section 4.6).  Each step returns the new editor, the
echo output, and the events delivered to the consumer.  On break the edit
buffer is preserved: spec section 7 states the internal buffer is preserved
so the consumer may resume, and the unit test test_editor_echo_on
(src/tests/test_editor.py lines 200-219) delivers characters typed before a
break in the eventually submitted line, so the clear-buffer wording of
spec section 4.6 is resolved in favour of preservation. -/
def Editor.step (ed : Editor) (k : Key) : Editor × List Echo × List Event :=
  match k with
  | .printable c =>
    ({ ed with buf := ed.buf.insert c, state := .editing },
     if ed.echo then [Echo.char c] else [], [])
  | .deleteLeft =>
    ({ ed with buf := ed.buf.delete_left, state := .editing }, ed.ctl, [])
  | .eofOrDeleteRight =>
    if ed.buf.cursor < ed.buf.line.length then
      ({ ed with buf := ed.buf.delete_right, state := .editing }, ed.ctl, [])
    else if ed.buf.line.isEmpty then
      ({ ed with state := .idle }, [], [Event.softEOF])
    else
      (ed, [], [])
  | .moveLeft =>
    ({ ed with buf := ed.buf.move_left, state := .editing }, ed.ctl, [])
  | .moveRight =>
    ({ ed with buf := ed.buf.move_right, state := .editing }, ed.ctl, [])
  | .moveHome =>
    ({ ed with buf := ed.buf.move_home, state := .editing }, ed.ctl, [])
  | .moveEnd =>
    ({ ed with buf := ed.buf.move_end, state := .editing }, ed.ctl, [])
  | .killLine =>
    ({ ed with buf := ed.buf.kill_line, state := .editing }, ed.ctl, [])
  | .killToEnd =>
    ({ ed with buf := ed.buf.kill_to_end, state := .editing }, ed.ctl, [])
  | .yank =>
    ({ ed with buf := ed.buf.yank, state := .editing }, ed.ctl, [])
  | .redraw =>
    (ed, ed.ctl, [])
  | .histPrev =>
    if 0 < ed.h_idx then
      let sc := if ed.h_idx = ed.hist.hist.length then ed.buf.line else ed.scratch
      let l := ed.hist.entry (ed.h_idx - 1)
      ({ ed with buf := { line := l, cursor := l.length, kill_ring := ed.buf.kill_ring },
                 h_idx := ed.h_idx - 1, scratch := sc, state := .editing },
       ed.ctl, [])
    else
      (ed, [], [])
  | .histNext =>
    if ed.h_idx < ed.hist.hist.length then
      let l := if ed.h_idx + 1 = ed.hist.hist.length then ed.scratch
               else ed.hist.entry (ed.h_idx + 1)
      ({ ed with buf := { line := l, cursor := l.length, kill_ring := ed.buf.kill_ring },
                 h_idx := ed.h_idx + 1, state := .editing },
       ed.ctl, [])
    else
      (ed, [], [])
  | .submit =>
    ({ ed with buf := { line := [], cursor := 0, kill_ring := ed.buf.kill_ring },
               hist := ed.hist.remember ed.buf.line,
               h_idx := (ed.hist.remember ed.buf.line).hist.length,
               scratch := [],
               state := .idle },
     [Echo.crlf], [Event.line ed.buf.line])
  | .brk =>
    (ed, [], [Event.breakEvt])
  | .unknown =>
    (ed, [], [])

/-- Modelled from the spec: terminal-resize handling (spec sections 4.6
and 6): update the policy dimensions, repaint, and deliver one Resized
event; the edit buffer is untouched. -/
def Editor.stepResize (ed : Editor) (w h : Nat) : Editor × List Echo × List Event :=
  ({ ed with width := w, height := h }, ed.ctl, [Event.resized w h])

/-- Run the editor over a list of decoded keys, concatenating echo output
and delivered events in order. -/
def Editor.processKeys (ed : Editor) : List Key → Editor × List Echo × List Event
  | [] => (ed, [], [])
  | k :: ks =>
    (((ed.step k).1.processKeys ks).1,
     (ed.step k).2.1 ++ ((ed.step k).1.processKeys ks).2.1,
     (ed.step k).2.2 ++ ((ed.step k).1.processKeys ks).2.2)

/-- Run the editor over incoming characters, decoding each (spec section 2
flow: bytes are decoded into characters, the key decoder yields actions). -/
def Editor.processChars (ed : Editor) (cs : List Char) : Editor × List Echo × List Event :=
  ed.processKeys (cs.map decode)

/-- Modelled from the spec: the freshly constructed editor of a session
(spec section 3, Lifecycle): empty buffer and history, echo on, default
80x24 terminal, history capacity 1000, idle. -/
def ed0 : Editor :=
  { buf := { line := [], cursor := 0, kill_ring := [] },
    hist := { hist := [], capacity := 1000 },
    h_idx := 0, scratch := [], echo := true,
    width := 80, height := 24, state := .idle }

/-- The lines delivered to the consumer among a list of events. -/
def deliveredLines : List Event → List (List Char)
  | [] => []
  | Event.line l :: es => l :: deliveredLines es
  | _ :: es => deliveredLines es

/-- The number of BREAK events among a list of events. -/
def countBreaks : List Event → Nat
  | [] => 0
  | Event.breakEvt :: es => countBreaks es + 1
  | _ :: es => countBreaks es

/-- The number of break characters 0x03 in an input character sequence. -/
def count03 : List Char → Nat
  | [] => 0
  | c :: cs => (if c.toNat = 0x03 then 1 else 0) + count03 cs

lemma processKeys_append (ks1 ks2 : List Key) :
    ∀ ed : Editor,
    ed.processKeys (ks1 ++ ks2) =
      (((ed.processKeys ks1).1.processKeys ks2).1,
       (ed.processKeys ks1).2.1 ++ ((ed.processKeys ks1).1.processKeys ks2).2.1,
       (ed.processKeys ks1).2.2 ++ ((ed.processKeys ks1).1.processKeys ks2).2.2) := by
  induction ks1 with
  | nil => intro ed; simp [Editor.processKeys]
  | cons k ks ih => intro ed; simp [Editor.processKeys, ih]

lemma insert_at_end (b : EditBuffer) (c : Char) (h : b.cursor = b.line.length) :
    b.insert c = { line := b.line ++ [c], cursor := b.line.length + 1,
                   kill_ring := b.kill_ring } := by
  unfold EditBuffer.insert
  rw [h, List.take_length, List.drop_length]

lemma printables_run (cs : List Char) :
    ∀ ed : Editor, ed.buf.cursor = ed.buf.line.length →
      (ed.processKeys (cs.map Key.printable)).1.buf.line = ed.buf.line ++ cs ∧
      (ed.processKeys (cs.map Key.printable)).1.buf.cursor
        = (ed.buf.line ++ cs).length ∧
      (ed.processKeys (cs.map Key.printable)).2.2 = [] := by
  induction cs with
  | nil =>
    intro ed h
    simp [Editor.processKeys, h]
  | cons c cs ih =>
    intro ed h
    have hb : (ed.step (Key.printable c)).1.buf
        = { line := ed.buf.line ++ [c], cursor := ed.buf.line.length + 1,
            kill_ring := ed.buf.kill_ring } := insert_at_end ed.buf c h
    have h1 : (ed.step (Key.printable c)).1.buf.cursor
        = (ed.step (Key.printable c)).1.buf.line.length := by
      rw [hb]
      simp
    obtain ⟨l1, c1, e1⟩ := ih _ h1
    simp only [List.map_cons, Editor.processKeys]
    refine ⟨?_, ?_, ?_⟩
    · rw [l1, hb]
      simp
    · rw [c1, hb]
      simp
    · rw [e1]
      simp [Editor.step]

/-- The four cursor-move actions of spec section 4.2. -/
def isMoveKey (k : Key) : Prop :=
  k = Key.moveLeft ∨ k = Key.moveRight ∨ k = Key.moveHome ∨ k = Key.moveEnd

lemma moves_run (ms : List Key) :
    ∀ ed : Editor, (∀ m ∈ ms, isMoveKey m) →
      (ed.processKeys ms).1.buf.line = ed.buf.line ∧
      (ed.processKeys ms).2.2 = [] := by
  induction ms with
  | nil => intro ed _; simp [Editor.processKeys]
  | cons m ms ih =>
    intro ed h
    have hm : isMoveKey m := h m (List.mem_cons_self m ms)
    have hrest : ∀ k ∈ ms, isMoveKey k := fun k hk => h k (List.mem_cons_of_mem m hk)
    simp only [Editor.processKeys]
    have hline : (ed.step m).1.buf.line = ed.buf.line := by
      rcases hm with h1 | h1 | h1 | h1 <;> subst h1 <;>
        simp [Editor.step, EditBuffer.move_left, EditBuffer.move_right,
              EditBuffer.move_home, EditBuffer.move_end]
    have hev : (ed.step m).2.2 = [] := by
      rcases hm with h1 | h1 | h1 | h1 <;> subst h1 <;> rfl
    obtain ⟨l1, e1⟩ := ih ((ed.step m).1) hrest
    exact ⟨by rw [l1, hline], by rw [hev, e1]; rfl⟩

instance (k : Key) : Decidable (isMoveKey k) := by
  unfold isMoveKey
  infer_instance

lemma decode_printable (c : Char) (h : printableChar c) : decode c = Key.printable c := by
  obtain ⟨h1, h2⟩ := h
  unfold decode
  repeat rw [if_neg (by omega)]

lemma decode_move (c : Char)
    (h : c.toNat = 1 ∨ c.toNat = 2 ∨ c.toNat = 5 ∨ c.toNat = 6) :
    isMoveKey (decode c) := by
  unfold decode
  rcases h with h | h | h | h
  · rw [if_pos (by omega)]
    decide
  · rw [if_neg (by omega), if_pos (by omega)]
    decide
  · rw [if_neg (by omega), if_neg (by omega), if_neg (by omega), if_neg (by omega),
        if_pos (by omega)]
    decide
  · rw [if_neg (by omega), if_neg (by omega), if_neg (by omega), if_neg (by omega),
        if_neg (by omega), if_pos (by omega)]
    decide

lemma decode_brk (c : Char) (h : c.toNat = 3) : decode c = Key.brk := by
  unfold decode
  rw [if_neg (by omega), if_neg (by omega), if_pos (by omega)]

lemma decode_brk_toNat (c : Char) (h : decode c = Key.brk) : c.toNat = 3 := by
  unfold decode at h
  by_cases h1 : c.toNat = 0x01
  case pos => rw [if_pos h1] at h; exact Key.noConfusion h
  rw [if_neg h1] at h
  by_cases h2 : c.toNat = 0x02
  case pos => rw [if_pos h2] at h; exact Key.noConfusion h
  rw [if_neg h2] at h
  by_cases h3 : c.toNat = 0x03
  case pos => exact h3
  rw [if_neg h3] at h
  by_cases h4 : c.toNat = 0x04
  case pos => rw [if_pos h4] at h; exact Key.noConfusion h
  rw [if_neg h4] at h
  by_cases h5 : c.toNat = 0x05
  case pos => rw [if_pos h5] at h; exact Key.noConfusion h
  rw [if_neg h5] at h
  by_cases h6 : c.toNat = 0x06
  case pos => rw [if_pos h6] at h; exact Key.noConfusion h
  rw [if_neg h6] at h
  by_cases h7 : c.toNat = 0x08
  case pos => rw [if_pos h7] at h; exact Key.noConfusion h
  rw [if_neg h7] at h
  by_cases h8 : c.toNat = 0x09
  case pos => rw [if_pos h8] at h; exact Key.noConfusion h
  rw [if_neg h8] at h
  by_cases h9 : c.toNat = 0x0A
  case pos => rw [if_pos h9] at h; exact Key.noConfusion h
  rw [if_neg h9] at h
  by_cases h10 : c.toNat = 0x0B
  case pos => rw [if_pos h10] at h; exact Key.noConfusion h
  rw [if_neg h10] at h
  by_cases h11 : c.toNat = 0x0D
  case pos => rw [if_pos h11] at h; exact Key.noConfusion h
  rw [if_neg h11] at h
  by_cases h12 : c.toNat = 0x0E
  case pos => rw [if_pos h12] at h; exact Key.noConfusion h
  rw [if_neg h12] at h
  by_cases h13 : c.toNat = 0x10
  case pos => rw [if_pos h13] at h; exact Key.noConfusion h
  rw [if_neg h13] at h
  by_cases h14 : c.toNat = 0x12
  case pos => rw [if_pos h14] at h; exact Key.noConfusion h
  rw [if_neg h14] at h
  by_cases h15 : c.toNat = 0x15
  case pos => rw [if_pos h15] at h; exact Key.noConfusion h
  rw [if_neg h15] at h
  by_cases h16 : c.toNat = 0x19
  case pos => rw [if_pos h16] at h; exact Key.noConfusion h
  rw [if_neg h16] at h
  by_cases h17 : c.toNat = 0x7F
  case pos => rw [if_pos h17] at h; exact Key.noConfusion h
  rw [if_neg h17] at h
  by_cases h18 : c.toNat < 0x20
  case pos => rw [if_pos h18] at h; exact Key.noConfusion h
  rw [if_neg h18] at h
  exact Key.noConfusion h

lemma countBreaks_append (a b : List Event) :
    countBreaks (a ++ b) = countBreaks a + countBreaks b := by
  induction a with
  | nil => simp [countBreaks]
  | cons e es ih => cases e <;> simp [countBreaks, ih] <;> try omega

lemma step_countBreaks_brk (ed : Editor) : countBreaks (ed.step Key.brk).2.2 = 1 := rfl

lemma step_countBreaks_ne (ed : Editor) (k : Key) (h : k ≠ Key.brk) :
    countBreaks (ed.step k).2.2 = 0 := by
  cases k <;>
    first
      | exact absurd rfl h
      | rfl
      | (unfold Editor.step; split_ifs <;> rfl)

lemma processChars_countBreaks (cs : List Char) :
    ∀ ed : Editor, countBreaks (ed.processChars cs).2.2 = count03 cs := by
  induction cs with
  | nil => intro ed; rfl
  | cons c cs ih =>
    intro ed
    unfold Editor.processChars at *
    simp only [List.map_cons, Editor.processKeys]
    rw [countBreaks_append, ih]
    by_cases h3 : c.toNat = 3
    · rw [decode_brk c h3, step_countBreaks_brk]
      simp [count03, h3]
    · have hne : decode c ≠ Key.brk := fun hh => h3 (decode_brk_toNat c hh)
      rw [step_countBreaks_ne ed (decode c) hne]
      simp [count03, h3]

lemma insert_wf (b : EditBuffer) (c : Char) (h : b.wf) : (b.insert c).wf := by
  unfold EditBuffer.wf EditBuffer.insert at *
  simp only [List.length_append, List.length_take, List.length_cons, List.length_drop]
  omega

lemma delete_left_wf (b : EditBuffer) (h : b.wf) : b.delete_left.wf := by
  unfold EditBuffer.wf EditBuffer.delete_left at *
  split
  · simp only [List.length_append, List.length_take, List.length_drop]
    omega
  · exact h

lemma delete_right_wf (b : EditBuffer) (h : b.wf) : b.delete_right.wf := by
  unfold EditBuffer.wf EditBuffer.delete_right at *
  split
  · simp only [List.length_append, List.length_take, List.length_drop]
    omega
  · exact h

lemma move_left_wf (b : EditBuffer) (h : b.wf) : b.move_left.wf := by
  unfold EditBuffer.wf EditBuffer.move_left at *
  simp only
  omega

lemma move_right_wf (b : EditBuffer) (h : b.wf) : b.move_right.wf := by
  unfold EditBuffer.wf EditBuffer.move_right at *
  simp only
  omega

lemma move_home_wf (b : EditBuffer) : b.move_home.wf := by
  unfold EditBuffer.wf EditBuffer.move_home
  simp only
  omega

lemma move_end_wf (b : EditBuffer) : b.move_end.wf := by
  unfold EditBuffer.wf EditBuffer.move_end
  exact Nat.le_refl _

lemma kill_line_wf (b : EditBuffer) : b.kill_line.wf := by
  unfold EditBuffer.wf EditBuffer.kill_line
  simp only
  omega

lemma kill_to_end_wf (b : EditBuffer) (h : b.wf) : b.kill_to_end.wf := by
  unfold EditBuffer.wf EditBuffer.kill_to_end at *
  simp only [List.length_take]
  omega

lemma yank_wf (b : EditBuffer) (h : b.wf) : b.yank.wf := by
  unfold EditBuffer.wf EditBuffer.yank at *
  simp only [List.length_append, List.length_take, List.length_drop]
  omega

lemma step_wf (ed : Editor) (k : Key) (h : ed.buf.wf) : (ed.step k).1.buf.wf := by
  cases k <;> simp only [Editor.step] <;>
    first
      | exact insert_wf ed.buf _ h
      | exact delete_left_wf ed.buf h
      | exact move_left_wf ed.buf h
      | exact move_right_wf ed.buf h
      | exact move_home_wf ed.buf
      | exact move_end_wf ed.buf
      | exact kill_line_wf ed.buf
      | exact kill_to_end_wf ed.buf h
      | exact yank_wf ed.buf h
      | exact h
      | exact Nat.zero_le _
      | (split_ifs <;>
          first
            | exact delete_right_wf ed.buf h
            | exact Nat.le_refl _
            | exact h)

lemma processKeys_wf (ks : List Key) :
    ∀ ed : Editor, ed.buf.wf → (ed.processKeys ks).1.buf.wf := by
  induction ks with
  | nil => intro ed h; exact h
  | cons k ks ih =>
    intro ed h
    simp only [Editor.processKeys]
    exact ih _ (step_wf ed k h)

lemma insert_delete_cancel (b : EditBuffer) (c : Char) (hwf : b.wf) :
    (b.insert c).delete_left = b := by
  have hw : b.cursor ≤ b.line.length := hwf
  have hlen : (b.line.take b.cursor).length = b.cursor := by
    rw [List.length_take]
    omega
  unfold EditBuffer.insert EditBuffer.delete_left
  simp only
  rw [if_pos (Nat.succ_pos b.cursor)]
  simp only [Nat.add_sub_cancel]
  have h1 : (b.line.take b.cursor ++ c :: b.line.drop b.cursor).take b.cursor
      = b.line.take b.cursor := List.take_left' hlen
  have h2 : (b.line.take b.cursor ++ c :: b.line.drop b.cursor).drop (b.cursor + 1)
      = b.line.drop b.cursor := by
    rw [show b.line.take b.cursor ++ c :: b.line.drop b.cursor
          = (b.line.take b.cursor ++ [c]) ++ b.line.drop b.cursor by simp]
    exact List.drop_left' (by simp [hlen])
  rw [h1, h2, List.take_append_drop]

/-- C1.  Line-delivery fidelity: an insert followed by delete-left cancels
exactly, restoring the whole buffer; and for any printable characters `cs`
followed by any sequence of cursor-move control characters and then the
newline, the single delivered line is exactly `cs`, with no terminator. -/
theorem line_delivery_fidelity :
    (∀ (b : EditBuffer) (c : Char), b.wf → (b.insert c).delete_left = b)
    ∧ (∀ (cs ms : List Char),
        (∀ c ∈ cs, printableChar c) →
        (∀ m ∈ ms, m.toNat = 1 ∨ m.toNat = 2 ∨ m.toNat = 5 ∨ m.toNat = 6) →
        deliveredLines (ed0.processChars (cs ++ ms ++ [Char.ofNat 0x0A])).2.2 = [cs]) := by
  constructor
  · exact insert_delete_cancel
  · intro cs ms hcs hms
    have hdec : List.map decode cs = List.map Key.printable cs :=
      List.map_congr_left fun c hc => decode_printable c (hcs c hc)
    have hmv : ∀ k ∈ List.map decode ms, isMoveKey k := by
      intro k hk
      rw [List.mem_map] at hk
      obtain ⟨m, hm, hmk⟩ := hk
      rw [← hmk]
      exact decode_move m (hms m hm)
    have hsub : List.map decode [Char.ofNat 0x0A] = [Key.submit] := by decide
    unfold Editor.processChars
    rw [List.map_append, List.map_append, hdec, hsub, List.append_assoc]
    rw [processKeys_append (List.map Key.printable cs)
          (List.map decode ms ++ [Key.submit]) ed0]
    obtain ⟨hl1, hc1, he1⟩ := printables_run cs ed0 rfl
    rw [processKeys_append (List.map decode ms) [Key.submit]]
    obtain ⟨hl2, he2⟩ :=
      moves_run (List.map decode ms) (ed0.processKeys (List.map Key.printable cs)).1 hmv
    simp only [he1, he2, List.nil_append]
    have hline :
        (((ed0.processKeys (List.map Key.printable cs)).1.processKeys
            (List.map decode ms)).1.buf.line) = cs := by
      rw [hl2, hl1]
      simp [ed0]
    simp only [Editor.processKeys, Editor.step, List.append_nil, hline]
    simp [deliveredLines]

/-- C1 witness: the cancellation law and the delivery law at concrete inputs. -/
theorem line_delivery_fidelity_instance :
    ((⟨['a'], 1, ['k']⟩ : EditBuffer).insert 'z').delete_left = ⟨['a'], 1, ['k']⟩
    ∧ deliveredLines
        (ed0.processChars (['a', 'b'] ++ [Char.ofNat 0x02] ++ [Char.ofNat 0x0A])).2.2
        = [['a', 'b']] :=
  ⟨line_delivery_fidelity.1 ⟨['a'], 1, ['k']⟩ 'z' (by decide),
   line_delivery_fidelity.2 ['a', 'b'] [Char.ofNat 0x02] (by decide) (by decide)⟩

/-- C2 (amended).  On the break character in line mode the editor renders
nothing, delivers exactly one BREAK event, and leaves the editor, in
particular its edit buffer and state, unchanged (the buffer is preserved
for resumption rather than cleared, and the state returns to IDLE only if
it was IDLE); over any input, the number of BREAK events delivered equals
the number of 0x03 characters received. -/
theorem break_event_behavior :
    (∀ ed : Editor, ed.step Key.brk = (ed, ([] : List Echo), [Event.breakEvt]))
    ∧ (∀ (ed : Editor) (cs : List Char),
        countBreaks (ed.processChars cs).2.2 = count03 cs) := by
  constructor
  · intro ed
    rfl
  · intro ed cs
    exact processChars_countBreaks cs ed

/-- C2 counterexample: after a printable character followed by 0x03 the edit
buffer still holds the character (the claimed clearing to the empty buffer
does not happen) and the editor is not in the IDLE state. -/
theorem break_clears_buffer_counterexample :
    (ed0.processChars ['a', Char.ofNat 0x03]).1.buf.line = ['a']
    ∧ (ed0.processChars ['a', Char.ofNat 0x03]).1.state = EdState.editing := by
  decide

/-- C3.  Break and Resized interrupts preserve the edit buffer (contents and
cursor), and characters typed before a break are still part of the line
eventually delivered after the consumer resumes. -/
theorem interrupt_preserves_buffer :
    (∀ (ed : Editor) (w h : Nat), (ed.stepResize w h).1.buf = ed.buf)
    ∧ (∀ ed : Editor, (ed.step Key.brk).1.buf = ed.buf)
    ∧ (∀ cs ds : List Char,
        (∀ c ∈ cs, printableChar c) → (∀ c ∈ ds, printableChar c) →
        (ed0.processChars (cs ++ Char.ofNat 0x03 :: (ds ++ [Char.ofNat 0x0A]))).2.2
          = [Event.breakEvt, Event.line (cs ++ ds)]) := by
  refine ⟨fun ed w h => rfl, fun ed => rfl, ?_⟩
  intro cs ds hcs hds
  have hdec : List.map decode cs = List.map Key.printable cs :=
    List.map_congr_left fun c hc => decode_printable c (hcs c hc)
  have hdecd : List.map decode ds = List.map Key.printable ds :=
    List.map_congr_left fun c hc => decode_printable c (hds c hc)
  have hbrk : decode (Char.ofNat 0x03) = Key.brk := by decide
  have hsub : List.map decode [Char.ofNat 0x0A] = [Key.submit] := by decide
  unfold Editor.processChars
  rw [List.map_append, List.map_cons, List.map_append, hdec, hdecd, hbrk, hsub]
  rw [processKeys_append (List.map Key.printable cs)
        (Key.brk :: (List.map Key.printable ds ++ [Key.submit])) ed0]
  obtain ⟨hl1, hc1, he1⟩ := printables_run cs ed0 rfl
  simp only [he1, List.nil_append]
  set ed1 := (ed0.processKeys (List.map Key.printable cs)).1 with hed1
  have hcur1 : ed1.buf.cursor = ed1.buf.line.length := by
    rw [hl1, hc1]
  simp only [Editor.processKeys, Editor.step]
  obtain ⟨hl2, hc2, he2⟩ := printables_run ds ed1 hcur1
  rw [processKeys_append (List.map Key.printable ds) [Key.submit] ed1]
  simp only [he2, List.nil_append]
  simp only [Editor.processKeys, Editor.step, List.append_nil]
  rw [hl2, hl1]
  simp [ed0, deliveredLines]

/-- C3 witness: a break between two typed characters still yields the
combined line. -/
theorem interrupt_preserves_buffer_instance :
    (ed0.processChars (['a'] ++ Char.ofNat 0x03 :: (['b'] ++ [Char.ofNat 0x0A]))).2.2
      = [Event.breakEvt, Event.line ['a', 'b']] :=
  interrupt_preserves_buffer.2.2 ['a'] ['b'] (by decide) (by decide)

/-- C4 (amended).  Kill-yank round trip: after `kill_line` then `yank` the
buffer contents are restored exactly, and the cursor lands at the end of the
line; the cursor position is therefore restored exactly when it already was
at the end of the line before the kill. -/
theorem kill_yank_round_trip :
    ∀ b : EditBuffer,
      (b.kill_line.yank).line = b.line ∧ (b.kill_line.yank).cursor = b.line.length := by
  intro b
  unfold EditBuffer.kill_line EditBuffer.yank
  simp

/-- C4 counterexample: with contents `ab` and the cursor between the two
characters (position 1), `kill_line` then `yank` moves the cursor to 2, so
the cursor position is not restored. -/
theorem kill_yank_cursor_counterexample :
    ((⟨['a', 'b'], 1, []⟩ : EditBuffer).kill_line.yank).cursor
      ≠ (⟨['a', 'b'], 1, []⟩ : EditBuffer).cursor := by
  decide

lemma remember_last_eq (r : HistoryRing) (l : List Char)
    (h : r.hist.getLast? = some l) : r.remember l = r := by
  unfold HistoryRing.remember
  rw [if_pos h]

/-- C5 (amended).  History no-dup: a second consecutive `remember x` is
always a no-op (for any ring of positive capacity), and the ring length
grows by exactly one across the two calls provided the last entry of the ring
differs from `x` and the ring is strictly below capacity.  Without those
provisos the growth can be zero, never two. -/
theorem remember_no_dup :
    (∀ (r : HistoryRing) (x : List Char), 1 ≤ r.capacity →
        (r.remember x).remember x = r.remember x)
    ∧ (∀ (r : HistoryRing) (x : List Char),
        r.hist.getLast? ≠ some x → r.hist.length < r.capacity →
        ((r.remember x).remember x).hist.length = r.hist.length + 1) := by
  constructor
  · intro r x hcap
    exact remember_last_eq _ x (remember_getLast r x hcap)
  · intro r x hne hlen
    have hcaplen : ¬ r.capacity < (r.hist ++ [x]).length := by
      simp only [List.length_append, List.length_cons, List.length_nil]
      omega
    have h1 : r.remember x = { r with hist := r.hist ++ [x] } := by
      unfold HistoryRing.remember
      rw [if_neg hne, if_neg hcaplen]
    have h2 : (r.remember x).remember x = r.remember x := by
      apply remember_last_eq
      rw [h1]
      exact List.getLast?_concat r.hist
    rw [h2, h1]
    simp

/-- C5 witness: starting from a ring whose last entry differs from the new
line and which is below capacity, two consecutive remember calls add exactly
one entry, and the second call changes nothing. -/
theorem remember_no_dup_instance :
    ((⟨[], 1000⟩ : HistoryRing).remember ['a']).remember ['a']
        = (⟨[], 1000⟩ : HistoryRing).remember ['a']
    ∧ (((⟨[['b']], 1000⟩ : HistoryRing).remember ['a']).remember ['a']).hist.length = 2 :=
  ⟨remember_no_dup.1 ⟨[], 1000⟩ ['a'] (by decide),
   remember_no_dup.2 ⟨[['b']], 1000⟩ ['a'] (by decide) (by decide)⟩

/-- C5 counterexample: if the ring already ends with `x`, two consecutive
`remember x` calls leave the length unchanged, not increased by one. -/
theorem remember_no_dup_counterexample :
    (((⟨[['a']], 1000⟩ : HistoryRing).remember ['a']).remember ['a']).hist.length
      ≠ (⟨[['a']], 1000⟩ : HistoryRing).hist.length + 1 := by
  decide

/-- C6.  Cursor clamp invariant: starting from any well-formed buffer, after
any sequence of editor key steps (in particular any sequence of moves) the
cursor satisfies `cursor ≤ len(line)`; a move left at the start and a move
right at the end are clamped no-ops. -/
theorem cursor_clamp :
    (∀ (ks : List Key) (ed : Editor), ed.buf.wf → (ed.processKeys ks).1.buf.wf)
    ∧ (∀ b : EditBuffer, b.cursor = 0 → b.move_left = b)
    ∧ (∀ b : EditBuffer, b.cursor = b.line.length → b.move_right = b) := by
  refine ⟨fun ks ed h => processKeys_wf ks ed h, ?_, ?_⟩
  · intro b h
    unfold EditBuffer.move_left
    rw [show b.cursor - 1 = b.cursor by omega]
  · intro b h
    unfold EditBuffer.move_right
    rw [show min (b.cursor + 1) b.line.length = b.cursor by omega]

/-- C6 witness: the invariant after a concrete key sequence from the fresh
editor, and the two clamped no-ops at concrete buffers. -/
theorem cursor_clamp_instance :
    (ed0.processKeys [Key.moveLeft, Key.printable 'a', Key.moveRight,
        Key.moveEnd]).1.buf.wf
    ∧ (⟨['a'], 0, []⟩ : EditBuffer).move_left = ⟨['a'], 0, []⟩
    ∧ (⟨['a'], 1, []⟩ : EditBuffer).move_right = ⟨['a'], 1, []⟩ :=
  ⟨cursor_clamp.1 [Key.moveLeft, Key.printable 'a', Key.moveRight, Key.moveEnd]
      ed0 (by decide),
   cursor_clamp.2.1 ⟨['a'], 0, []⟩ rfl,
   cursor_clamp.2.2 ⟨['a'], 1, []⟩ (by decide)⟩

lemma soft_eof_step (ed : Editor) (h : ed.buf.line = []) :
    ed.step Key.eofOrDeleteRight
      = ({ ed with state := EdState.idle }, ([] : List Echo), [Event.softEOF]) := by
  simp only [Editor.step]
  rw [if_neg (show ¬ ed.buf.cursor < ed.buf.line.length by rw [h]; simp)]
  rw [if_pos (show ed.buf.line.isEmpty = true by rw [h]; rfl)]

/-- C7.  Soft EOF: 0x04 with an empty buffer delivers a soft-EOF (an empty
read terminated by EOF), leaves the buffer empty and the editor otherwise
unchanged; 0x04 with a non-empty buffer and the cursor at the end is a
complete no-op (no EOF, nothing delivered, buffer unchanged); and after a
soft-EOF the session keeps processing subsequent input exactly as before,
with the soft-EOF event simply prepended to the later deliveries. -/
theorem soft_eof_behavior :
    (∀ ed : Editor, ed.buf.line = [] →
        ed.step (decode (Char.ofNat 0x04))
          = ({ ed with state := EdState.idle }, ([] : List Echo), [Event.softEOF]))
    ∧ (∀ ed : Editor, ed.buf.line ≠ [] → ed.buf.cursor = ed.buf.line.length →
        ed.step (decode (Char.ofNat 0x04)) = (ed, ([] : List Echo), ([] : List Event)))
    ∧ (∀ (ed : Editor) (ks : List Key), ed.buf.line = [] → ed.state = EdState.idle →
        ed.processKeys (decode (Char.ofNat 0x04) :: ks)
          = ((ed.processKeys ks).1, (ed.processKeys ks).2.1,
             Event.softEOF :: (ed.processKeys ks).2.2)) := by
  have hdec : decode (Char.ofNat 0x04) = Key.eofOrDeleteRight := by decide
  refine ⟨?_, ?_, ?_⟩
  · intro ed h
    rw [hdec]
    exact soft_eof_step ed h
  · intro ed h1 h2
    rw [hdec]
    simp only [Editor.step]
    rw [if_neg (show ¬ ed.buf.cursor < ed.buf.line.length by omega)]
    rw [if_neg (show ¬ ed.buf.line.isEmpty = true by
          intro hh; exact h1 (by rwa [List.isEmpty_iff] at hh))]
  · intro ed ks h hst
    have heta : ({ ed with state := EdState.idle } : Editor) = ed := by
      rw [← hst]
    simp only [Editor.processKeys]
    rw [hdec, soft_eof_step ed h, heta]
    simp

/-- C7 witness: the three clauses at concrete editors. -/
theorem soft_eof_behavior_instance :
    ed0.step (decode (Char.ofNat 0x04))
        = ({ ed0 with state := EdState.idle }, ([] : List Echo), [Event.softEOF])
    ∧ (⟨⟨['a'], 1, []⟩, ⟨[], 1000⟩, 0, [], true, 80, 24, EdState.editing⟩ : Editor).step
          (decode (Char.ofNat 0x04))
        = (⟨⟨['a'], 1, []⟩, ⟨[], 1000⟩, 0, [], true, 80, 24, EdState.editing⟩,
           ([] : List Echo), ([] : List Event))
    ∧ ed0.processKeys (decode (Char.ofNat 0x04) :: [Key.printable 'a'])
        = ((ed0.processKeys [Key.printable 'a']).1,
           (ed0.processKeys [Key.printable 'a']).2.1,
           Event.softEOF :: (ed0.processKeys [Key.printable 'a']).2.2) :=
  ⟨soft_eof_behavior.1 ed0 rfl,
   soft_eof_behavior.2.1 _ (by decide) (by decide),
   soft_eof_behavior.2.2 ed0 [Key.printable 'a'] rfl rfl⟩

/-- Modelled from the spec: session terminal types relevant to editor
selection (spec section 6 policy table): a cursor-addressable type such as
ansi or xterm, or a dumb terminal. -/
inductive TermType where
  | ansi
  | dumb
deriving Repr, DecidableEq

/-- Modelled from the spec: a session text encoding name; the claims only
need presence or absence, plus a token value (spec section 6). -/
inductive Encoding where
  | utf8
deriving Repr, DecidableEq

/-- Modelled from the spec: the session policy snapshot consumed by the
session adapter (spec sections 4.7 and 6): the line-editor switch, the
optional text encoding (absent means a bytes session), the optional
terminal type (absent means no pseudo-terminal), and the dimensions. -/
structure Policy where
  line_editor : Bool
  encoding : Option Encoding
  term_type : Option TermType
  width : Nat
  height : Nat
deriving Repr, DecidableEq

/-- Modelled from the spec: the editor runs only when the policy enables the
line editor, a text encoding is present, and a terminal type is set
(spec sections 4.7 and 6); in every other case the session is a plain
byte pipe. -/
def editorEnabled (p : Policy) : Bool :=
  p.line_editor && p.encoding.isSome && p.term_type.isSome

/-- Modelled from the spec: inbound data handling of the session adapter
(spec section 4.7): with the editor enabled the characters run through the
editor; otherwise they bypass it and flow straight through to the
application unmodified, as a single raw delivery. -/
def sessionReceive (p : Policy) (ed : Editor) (data : List Char) :
    Editor × List Echo × List Event :=
  if editorEnabled p then ed.processChars data
  else (ed, [], [Event.rawData data])

/-- Modelled from the spec: outbound application writes pass through the
session unchanged in all modes (spec section 4.7). -/
def sessionWrite (p : Policy) (s : List Char) : List Char := s

/-- C8.  Pass-through when the editor is disabled: if the line editor is off
in policy, or the session encoding is absent (a bytes session), or no
terminal type is set, inbound data bypasses the editor entirely and reaches
the application unmodified as raw data, with no echo produced, and outbound
writes are unchanged; with the editor enabled the same bytes instead run
through the editor, which delivers the line without its terminator. -/
theorem editor_disabled_passthrough :
    (∀ (p : Policy) (ed : Editor) (data s : List Char),
        (p.line_editor = false ∨ p.encoding = none ∨ p.term_type = none) →
        sessionReceive p ed data = (ed, [], [Event.rawData data])
        ∧ sessionWrite p s = s)
    ∧ editorEnabled ⟨true, some Encoding.utf8, some TermType.ansi, 80, 24⟩ = true
    ∧ deliveredLines (sessionReceive ⟨true, some Encoding.utf8, some TermType.ansi, 80, 24⟩
          ed0 ['a', 'b', 'c', Char.ofNat 0x0A]).2.2 = [['a', 'b', 'c']] := by
  refine ⟨?_, rfl, by decide⟩
  intro p ed data s hdis
  have hoff : editorEnabled p = false := by
    unfold editorEnabled
    rcases hdis with h | h | h <;> simp [h]
  constructor
  · unfold sessionReceive
    rw [hoff]
    simp
  · rfl

/-- C8 witness: a bytes-session policy (no encoding) passes data through
untouched. -/
theorem editor_disabled_passthrough_instance :
    sessionReceive ⟨true, none, some TermType.ansi, 80, 24⟩ ed0 ['a', Char.ofNat 0x0A]
        = (ed0, [], [Event.rawData ['a', Char.ofNat 0x0A]])
    ∧ sessionWrite ⟨true, none, some TermType.ansi, 80, 24⟩ ['x', 'y'] = ['x', 'y'] :=
  editor_disabled_passthrough.1 ⟨true, none, some TermType.ansi, 80, 24⟩ ed0
    ['a', Char.ofNat 0x0A] ['x', 'y'] (Or.inr (Or.inl rfl))

end AsyncSSHEditor

namespace AsyncSSHAgent

/-!
The Windows agent transports, embedded from src/asyncssh/agent_win32.py.
A byte-addressed file (the Pageant shared-memory map, or the Windows 10
OpenSSH named-pipe handle) is modelled as its byte contents plus a read
and write position; the Windows message-window round trip performed by the
Pageant transport before reading is an external side effect whose success
is a boolean parameter of `readexactly`.
-/

/-- The byte store behind a transport handle: contents and current
position.  `read n` returns up to `n` bytes from the position, fewer when
the contents are exhausted, advancing the position, exactly as the
`mmapfile.read` and binary-file `read` calls used by agent_win32.py do. -/
structure MapFile where
  data : List Nat
  pos : Nat
deriving Repr, DecidableEq

def MapFile.read (f : MapFile) (n : Nat) : List Nat × MapFile :=
  let r := (f.data.drop f.pos).take n
  (r, { f with pos := f.pos + r.length })

def MapFile.seek (f : MapFile) (p : Nat) : MapFile :=
  { f with pos := p }

/-- Writing `d` at the current position, overwriting in place, as a memory
map does.  Only used by `write`; no claim quantifies over it. -/
def MapFile.writeAt (f : MapFile) (d : List Nat) : MapFile :=
  { data := f.data.take f.pos ++ d ++ f.data.drop (f.pos + d.length),
    pos := f.pos + d.length }

/-- The errors of the transport operations: `incompleteRead` carries the
bytes actually read and the requested count, mirroring
`asyncio.IncompleteReadError(result, n)`; `ioError` is the OSError path;
`closedHandle` stands for the attribute error a call after `close` would
hit (never exercised by the claims). -/
inductive AgentError where
  | incompleteRead (data : List Nat) (requested : Nat)
  | ioError
  | closedHandle
deriving Repr, DecidableEq

/-- The observable I/O a `close` call performs on the underlying handle. -/
inductive AgentOp where
  | closeHandle
deriving Repr, DecidableEq

/-- State of `_PageantTransport` (agent_win32.py lines 69-122): the
shared-memory map file, present until `close` sets it to `None`, and the
`_writing` flag. -/
structure PageantTransport where
  mapfile : Option MapFile
  writing : Bool
deriving Repr, DecidableEq

/-- `_PageantTransport.write` (agent_win32.py lines 86-96): on the first
write of a request, seek to 0 and set the writing flag; then write the data
into the map, failing with an OSError when the fixed-size map overflows. -/
def PageantTransport.write (t : PageantTransport) (d : List Nat) :
    Except AgentError PageantTransport :=
  match t.mapfile with
  | none => .error .closedHandle
  | some f0 =>
    let f1 := if t.writing then f0 else f0.seek 0
    if f1.pos + d.length ≤ f1.data.length then
      .ok { mapfile := some (f1.writeAt d), writing := true }
    else
      .error .ioError

/-- `_PageantTransport.readexactly` (agent_win32.py lines 98-115): if a
request is pending, send the WM_COPYDATA message (success given by
`sendOk`), clear the writing flag and seek to 0; then read `n` bytes and
raise `IncompleteReadError(result, n)` if fewer came back. -/
def PageantTransport.readexactly (sendOk : Bool) (t : PageantTransport) (n : Nat) :
    Except AgentError (List Nat × PageantTransport) :=
  match t.mapfile with
  | none => .error .closedHandle
  | some f0 =>
    if t.writing ∧ sendOk = false then .error .ioError
    else
      let f1 := if t.writing then f0.seek 0 else f0
      let r := (f1.read n).1
      if r.length ≠ n then .error (.incompleteRead r n)
      else .ok (r, { mapfile := some (f1.read n).2, writing := false })

/-- `_PageantTransport.close` (agent_win32.py lines 117-122): close the map
file handle and set it to `None` if it is still present; otherwise do
nothing.  The returned list records the I/O performed. -/
def PageantTransport.close (t : PageantTransport) :
    PageantTransport × List AgentOp :=
  match t.mapfile with
  | some _ => ({ t with mapfile := none }, [AgentOp.closeHandle])
  | none => (t, [])

/-- State of `_W10OpenSSHTransport` (agent_win32.py lines 125-151): the
agent pipe file, present until `close` sets it to `None`. -/
structure W10OpenSSHTransport where
  agentfile : Option MapFile
deriving Repr, DecidableEq

/-- `_W10OpenSSHTransport.write` (agent_win32.py lines 131-134). -/
def W10OpenSSHTransport.write (t : W10OpenSSHTransport) (d : List Nat) :
    Except AgentError W10OpenSSHTransport :=
  match t.agentfile with
  | none => .error .closedHandle
  | some f => .ok ⟨some (f.writeAt d)⟩

/-- `_W10OpenSSHTransport.readexactly` (agent_win32.py lines 136-144): read
`n` bytes from the pipe and raise `IncompleteReadError(result, n)` if fewer
were available. -/
def W10OpenSSHTransport.readexactly (t : W10OpenSSHTransport) (n : Nat) :
    Except AgentError (List Nat × W10OpenSSHTransport) :=
  match t.agentfile with
  | none => .error .closedHandle
  | some f =>
    let r := (f.read n).1
    if r.length ≠ n then .error (.incompleteRead r n)
    else .ok (r, ⟨some (f.read n).2⟩)

/-- `_W10OpenSSHTransport.close` (agent_win32.py lines 146-151). -/
def W10OpenSSHTransport.close (t : W10OpenSSHTransport) :
    W10OpenSSHTransport × List AgentOp :=
  match t.agentfile with
  | some _ => (⟨none⟩, [AgentOp.closeHandle])
  | none => (t, [])

/-- The bytes still available from the current position of a handle. -/
def MapFile.remaining (f : MapFile) : List Nat := f.data.drop f.pos

/-- C9.  IncompleteRead carries the result read so far: for both agent
transports, when fewer than `n` bytes remain before the source is
exhausted, `readexactly n` fails with `incompleteRead` carrying exactly the
bytes that were read and the requested count `n`; when at least `n` bytes
remain it returns exactly the next `n` bytes.  For the Pageant transport
this holds whether or not a request was pending (`w`), in which case the
read restarts from position 0 after the message round trip. -/
theorem readexactly_incomplete_read :
    (∀ (f : MapFile) (w : Bool) (n : Nat),
      (((if w then f.seek 0 else f).remaining).length < n →
        PageantTransport.readexactly true ⟨some f, w⟩ n
          = Except.error
              (AgentError.incompleteRead (if w then f.seek 0 else f).remaining n))
      ∧ (n ≤ ((if w then f.seek 0 else f).remaining).length →
        PageantTransport.readexactly true ⟨some f, w⟩ n
          = Except.ok ((if w then f.seek 0 else f).remaining.take n,
              ⟨some { data := f.data, pos := (if w then 0 else f.pos) + n }, false⟩)))
    ∧ (∀ (f : MapFile) (n : Nat),
      (f.remaining.length < n →
        W10OpenSSHTransport.readexactly ⟨some f⟩ n
          = Except.error (AgentError.incompleteRead f.remaining n))
      ∧ (n ≤ f.remaining.length →
        W10OpenSSHTransport.readexactly ⟨some f⟩ n
          = Except.ok (f.remaining.take n,
              ⟨some { data := f.data, pos := f.pos + n }⟩))) := by
  constructor
  · intro f w n
    cases w
    · constructor
      · intro hlt
        unfold MapFile.remaining at hlt
        simp only [if_neg Bool.false_ne_true] at hlt
        unfold PageantTransport.readexactly MapFile.read MapFile.remaining
        simp only [if_neg Bool.false_ne_true]
        rw [if_neg (by simp)]
        rw [if_pos (by rw [List.take_of_length_le (Nat.le_of_lt hlt)]; omega)]
        rw [List.take_of_length_le (Nat.le_of_lt hlt)]
      · intro hge
        unfold MapFile.remaining at hge
        simp only [if_neg Bool.false_ne_true] at hge
        unfold PageantTransport.readexactly MapFile.read MapFile.remaining
        simp only [if_neg Bool.false_ne_true]
        have hlen : ((f.data.drop f.pos).take n).length = n := by
          rw [List.length_take]
          omega
        rw [if_neg (by simp)]
        rw [if_neg (by omega)]
        rw [hlen]
    · constructor
      · intro hlt
        unfold MapFile.remaining MapFile.seek at hlt
        simp only [if_true] at hlt
        unfold PageantTransport.readexactly MapFile.read MapFile.seek
          MapFile.remaining
        simp only [if_true]
        rw [if_neg (by simp)]
        rw [if_pos (by rw [List.take_of_length_le (Nat.le_of_lt hlt)]; omega)]
        rw [List.take_of_length_le (Nat.le_of_lt hlt)]
      · intro hge
        unfold MapFile.remaining MapFile.seek at hge
        simp only [if_true] at hge
        unfold PageantTransport.readexactly MapFile.read MapFile.seek
          MapFile.remaining
        simp only [if_true]
        have hlen : ((f.data.drop 0).take n).length = n := by
          rw [List.length_take]
          omega
        rw [if_neg (by simp)]
        rw [if_neg (by omega)]
        rw [hlen]
  · intro f n
    constructor
    · intro hlt
      unfold W10OpenSSHTransport.readexactly MapFile.read MapFile.remaining at *
      simp only
      rw [if_pos (by rw [List.take_of_length_le (Nat.le_of_lt hlt)]; omega)]
      rw [List.take_of_length_le (Nat.le_of_lt hlt)]
    · intro hge
      unfold W10OpenSSHTransport.readexactly MapFile.read MapFile.remaining at *
      simp only
      have hlen : ((f.data.drop f.pos).take n).length = n := by
        rw [List.length_take]
        omega
      rw [if_neg (by omega)]
      rw [hlen]

/-- C9 witness: a three-byte source answers a five-byte request with
`incompleteRead [1, 2, 3] 5` and a two-byte request with the first two
bytes, on both transports. -/
theorem readexactly_incomplete_read_instance :
    PageantTransport.readexactly true ⟨some ⟨[1, 2, 3], 0⟩, false⟩ 5
        = Except.error (AgentError.incompleteRead [1, 2, 3] 5)
    ∧ PageantTransport.readexactly true ⟨some ⟨[1, 2, 3], 0⟩, false⟩ 2
        = Except.ok ([1, 2], ⟨some ⟨[1, 2, 3], 2⟩, false⟩)
    ∧ W10OpenSSHTransport.readexactly ⟨some ⟨[1, 2, 3], 0⟩⟩ 5
        = Except.error (AgentError.incompleteRead [1, 2, 3] 5)
    ∧ W10OpenSSHTransport.readexactly ⟨some ⟨[1, 2, 3], 0⟩⟩ 2
        = Except.ok ([1, 2], ⟨some ⟨[1, 2, 3], 2⟩⟩) :=
  ⟨(readexactly_incomplete_read.1 ⟨[1, 2, 3], 0⟩ false 5).1 (by decide),
   (readexactly_incomplete_read.1 ⟨[1, 2, 3], 0⟩ false 2).2 (by decide),
   (readexactly_incomplete_read.2 ⟨[1, 2, 3], 0⟩ 5).1 (by decide),
   (readexactly_incomplete_read.2 ⟨[1, 2, 3], 0⟩ 2).2 (by decide)⟩

/-- C10.  Close is idempotent and performs no I/O after the first call: for
both agent transports the first `close` on an open transport closes the
underlying handle (exactly one close operation) and sets it to `None`, and
any further `close` changes nothing and performs no I/O at all. -/
theorem close_idempotent :
    (∀ t : PageantTransport,
        PageantTransport.close (PageantTransport.close t).1
          = ((PageantTransport.close t).1, []))
    ∧ (∀ t : W10OpenSSHTransport,
        W10OpenSSHTransport.close (W10OpenSSHTransport.close t).1
          = ((W10OpenSSHTransport.close t).1, []))
    ∧ (∀ t : PageantTransport, t.mapfile.isSome = true →
        (PageantTransport.close t).1.mapfile = none
        ∧ (PageantTransport.close t).2 = [AgentOp.closeHandle])
    ∧ (∀ t : W10OpenSSHTransport, t.agentfile.isSome = true →
        (W10OpenSSHTransport.close t).1.agentfile = none
        ∧ (W10OpenSSHTransport.close t).2 = [AgentOp.closeHandle]) := by
  refine ⟨?_, ?_, ?_, ?_⟩
  · intro t
    obtain ⟨mf, w⟩ := t
    cases mf <;> simp [PageantTransport.close]
  · intro t
    obtain ⟨mf⟩ := t
    cases mf <;> simp [W10OpenSSHTransport.close]
  · intro t h
    obtain ⟨mf, w⟩ := t
    cases mf
    · simp at h
    · simp [PageantTransport.close]
  · intro t h
    obtain ⟨mf⟩ := t
    cases mf
    · simp at h
    · simp [W10OpenSSHTransport.close]

/-- C10 witness: closing an open transport once closes the handle; closing
again does nothing. -/
theorem close_idempotent_instance :
    PageantTransport.close (PageantTransport.close ⟨some ⟨[], 0⟩, false⟩).1
        = ((PageantTransport.close ⟨some ⟨[], 0⟩, false⟩).1, [])
    ∧ (PageantTransport.close ⟨some ⟨[], 0⟩, false⟩).1.mapfile = none
    ∧ (PageantTransport.close ⟨some ⟨[], 0⟩, false⟩).2 = [AgentOp.closeHandle]
    ∧ (W10OpenSSHTransport.close ⟨some ⟨[], 0⟩⟩).1.agentfile = none
    ∧ (W10OpenSSHTransport.close ⟨some ⟨[], 0⟩⟩).2 = [AgentOp.closeHandle] :=
  ⟨close_idempotent.1 ⟨some ⟨[], 0⟩, false⟩,
   (close_idempotent.2.2.1 ⟨some ⟨[], 0⟩, false⟩ rfl).1,
   (close_idempotent.2.2.1 ⟨some ⟨[], 0⟩, false⟩ rfl).2,
   (close_idempotent.2.2.2 ⟨some ⟨[], 0⟩⟩ rfl).1,
   (close_idempotent.2.2.2 ⟨some ⟨[], 0⟩⟩ rfl).2⟩

end AsyncSSHAgent
